import Mathlib

/-!
Verification development for the bidirectional INI/Template translation
engine of this repository.  The engine consists of:

* `scripts/翻译脚本.py` — the forward translator (`TranslationLibrary`,
  `INITranslator`): glossary loading, key/section/value dictionaries,
  longest-match-first free-text substitution via `re.sub(r'\b…\b', …)`.
* `scripts/反向翻译脚本.py` — the reverse translator
  (`ReverseTranslationLibrary`, `ReverseTranslator`): the same glossary read
  backwards, plus the structural line rewriter for section and key-value
  lines.
* `scripts/工具集/查重工具.py` — a second reverse rewriter that additionally
  implements the underscore-prefix fallback for section names.
* `scripts/工具集/查重翻译库.py` — the glossary duplicate checker
  (`check_duplicates`).

Text is modelled as `List Char`; Python dicts as insertion-ordered
association lists (`dictInsert` re-assigns in place, preserving first
insertion position, exactly like CPython dicts); Python's `re.sub` with a
word-boundary-escaped-literal pattern is modelled by `subWord`, a left-to-right
non-overlapping scanner over the original string.  IO, logging and the
statistics counters are not modelled: every function here is the pure text
transformation performed by the corresponding Python code.
-/

namespace IniTrans

/-- Strings are modelled as lists of characters. -/
abbrev Text := List Char

/-- Shorthand turning a string literal into the `Text` model. -/
def lc (s : String) : Text := s.data

/-- Python `str.strip()`: drop leading and trailing whitespace. -/
def dropTrailingWS (l : Text) : Text :=
  (l.reverse.dropWhile Char.isWhitespace).reverse

/-- Python `str.rstrip()` keeps only this trailing-side drop. -/
def trailingWS (l : Text) : Text :=
  (l.reverse.takeWhile Char.isWhitespace).reverse

/-- Python `str.strip()` on both sides. -/
def stripLC (l : Text) : Text :=
  dropTrailingWS (l.dropWhile Char.isWhitespace)

/-- Python `str.lower()`, character-wise. -/
def lowerLC (l : Text) : Text := l.map Char.toLower

/-- Python `str.split(sep)` on a single character, keeping empty pieces. -/
def splitOnChar (c : Char) : Text → List Text
  | [] => [[]]
  | x :: xs =>
    match splitOnChar c xs with
    | [] => [[]]
    | h :: t => if x = c then [] :: h :: t else (x :: h) :: t

/-- Python `str.split(sep, 1)` when `sep` is known to occur: the part before
the first occurrence and the part after it. -/
def splitFirst (c : Char) (l : Text) : Text × Text :=
  (l.takeWhile (fun x => x != c), (l.dropWhile (fun x => x != c)).drop 1)

/-! ### Word-boundary substitution (`re.sub(r'\b' + re.escape(term) + r'\b', repl, s)`)

Python's `\w` (which `\b` is defined from) covers ASCII alphanumerics, the
underscore, and unicode letters; for the character ranges this repository's
glossaries use (ASCII identifiers and CJK ideographs) we model word
characters as ASCII alphanumerics, `_`, and the CJK unified block. -/

def isWordChar (c : Char) : Bool :=
  c.isAlphanum || c = '_' || (0x4E00 ≤ c.toNat && c.toNat ≤ 0x9FFF)

/-- Whether the position left (resp. right) of a character is occupied by a
word character; the outside of the string counts as non-word. -/
def wordAt : Option Char → Bool
  | none => false
  | some c => isWordChar c

/-- A `\b` boundary sits between two positions iff exactly one side is a word
character. -/
def bdry (a b : Option Char) : Bool := wordAt a != wordAt b

/-- Does the term `th :: tt` (with last character `tl`) match at the current
position (`prev` = character just before, `c :: rest` = remaining input) with
`\b` holding on both sides? -/
def matchCond (th : Char) (tt : Text) (tl : Char) (prev : Option Char)
    (c : Char) (rest : Text) : Bool :=
  List.isPrefixOf (th :: tt) (c :: rest) && bdry prev (some th)
    && bdry (some tl) ((rest.drop tt.length).head?)

/-- Scanner for `re.sub`: walk the original string left to right; at a
boundary match emit the replacement and skip the matched term
(non-overlapping, boundaries judged on the original string); otherwise copy
one character.  `fuel` is an upper bound on the number of steps (each step
consumes at least one input character), which keeps the recursion
structural. -/
def subWordAux (th : Char) (tt : Text) (tl : Char) (r : Text) :
    Nat → Option Char → Text → Text
  | 0, _, s => s
  | _ + 1, _, [] => []
  | fuel + 1, prev, c :: rest =>
    if matchCond th tt tl prev c rest then
      r ++ subWordAux th tt tl r fuel (some tl) (rest.drop tt.length)
    else
      c :: subWordAux th tt tl r fuel (some c) rest

/-- `re.sub(r'\b' + re.escape(t) + r'\b', r, s)` for a non-empty literal term
`t`.  (Glossary terms are non-empty after `strip`; a degenerate empty term is
modelled as a no-op.) -/
def subWord (t r s : Text) : Text :=
  match t with
  | [] => s
  | th :: tt => subWordAux th tt (tt.getLastD th) r s.length none s

/-- Does the term match anywhere in `s` with word boundaries?  Mirrors the
position scanning of `subWordAux` (`pattern.search` in the source). -/
def hasMatchAux (th : Char) (tt : Text) (tl : Char) :
    Option Char → Text → Bool
  | _, [] => false
  | prev, c :: rest =>
    matchCond th tt tl prev c rest || hasMatchAux th tt tl (some c) rest

/-- `pattern.search(s) is not None` for the word-boundary pattern of `t`. -/
def hasWordMatch (t s : Text) : Bool :=
  match t with
  | [] => false
  | th :: tt => hasMatchAux th tt (tt.getLastD th) none s

/-! ### Python dicts as insertion-ordered association lists -/

/-- `d[k] = v`: re-assigning an existing key keeps its position (CPython dict
semantics); a new key is appended at the end. -/
def dictInsert (d : List (Text × Text)) (k v : Text) : List (Text × Text) :=
  match d with
  | [] => [(k, v)]
  | (k', v') :: rest =>
    if k' = k then (k, v) :: rest else (k', v') :: dictInsert rest k v

/-- `d.get(k)`. -/
def dictGet (d : List (Text × Text)) (k : Text) : Option Text :=
  (d.find? (fun p => p.1 == k)).map Prod.snd

/-- `d.get(k, dflt)`. -/
def dictGetD (d : List (Text × Text)) (k dflt : Text) : Text :=
  (dictGet d k).getD dflt

/-! ### `sorted(keys, key=len, reverse=True)` — Python's stable sort -/

/-- Insert an element arriving *later* than everything in `l` into a
length-descending sorted list: it goes after every element of length `≥` its
own, which is exactly stability for Python's `sorted(..., key=len,
reverse=True)`. -/
def insertByLenDesc (x : Text) : List Text → List Text
  | [] => [x]
  | y :: ys =>
    if y.length < x.length then x :: y :: ys
    else y :: insertByLenDesc x ys

/-- Stable sort by descending length (processes the list left to right,
inserting each element after earlier elements of length `≥` its own). -/
def sortByLenDesc (l : List Text) : List Text :=
  l.foldl (fun acc x => insertByLenDesc x acc) []

/-- `_compile_translation_patterns` / `_compile_patterns`: the free-text
priority list — dictionary keys that do not occur among the dictionary's
values, sorted by descending length. -/
def sortedKeys (d : List (Text × Text)) : List Text :=
  sortByLenDesc ((d.map Prod.fst).filter
    (fun k => decide (k ∉ d.map Prod.snd)))

/-! ### The translation store and its lookups -/

/-- The three role-separated maps of `TranslationLibrary` /
`ReverseTranslationLibrary`: `translations` (Key role),
`section_translations` (Section role), `value_translations`
(Literal role). -/
structure Store where
  translations : List (Text × Text)
  sectionTranslations : List (Text × Text)
  valueTranslations : List (Text × Text)
deriving DecidableEq, Repr

def emptyStore : Store := ⟨[], [], []⟩

/-- `get_translation`: key lookup, defaulting to the input. -/
def getTranslation (lib : Store) (k : Text) : Text :=
  dictGetD lib.translations k k

/-- `get_section_translation`. -/
def getSectionTranslation (lib : Store) (s : Text) : Text :=
  dictGetD lib.sectionTranslations s s

/-- `get_value_translation`. -/
def getValueTranslation (lib : Store) (v : Text) : Text :=
  dictGetD lib.valueTranslations v v

/-! ### Glossary loading -/

/-- The forward loader's reserved literal-token list
(`翻译脚本.py`, `load_library`). -/
def fwdSpecialTokens : List Text :=
  [lc "true", lc "false", lc "TRUE", lc "FALSE", lc "True", lc "False",
   lc "LAND", lc "WATER", lc "HOVER", lc "AIR", lc "OVER_CLIFF",
   lc "AUTO", lc "NONE"]

/-- The reverse loader's reserved literal-token set
(`反向翻译脚本.py`, `SPECIAL_VALUES`). -/
def revSpecialTokens : List Text :=
  [lc "true", lc "false", lc "TRUE", lc "FALSE", lc "True", lc "False",
   lc "LAND", lc "WATER", lc "HOVER", lc "AIR", lc "OVER_CLIFF",
   lc "OVER_CLIFF_WATER", lc "AUTO", lc "NONE"]

/-- Role classification of a flat glossary entry by the forward loader. -/
def fwdIsLiteralSource (eng : Text) : Bool := decide (eng ∈ fwdSpecialTokens)

/-- Role classification of a flat glossary entry by the reverse loader. -/
def revIsLiteralSource (eng : Text) : Bool := decide (eng ∈ revSpecialTokens)

/-- Forward loader, flat entry `eng = chn`: literal tokens go to the value
map, everything else to the key map. -/
def fwdAddFlat (st : Store) (eng chn : Text) : Store :=
  if fwdIsLiteralSource eng then
    { st with valueTranslations := dictInsert st.valueTranslations eng chn }
  else
    { st with translations := dictInsert st.translations eng chn }

/-- Reverse loader, flat entry `eng = chn`: the maps run target→source. -/
def revAddFlat (st : Store) (eng chn : Text) : Store :=
  if revIsLiteralSource eng then
    { st with valueTranslations := dictInsert st.valueTranslations chn eng }
  else
    { st with translations := dictInsert st.translations chn eng }

/-- Fold a list of already-split flat entries through the forward loader. -/
def fwdStoreOfEntries (es : List (Text × Text)) : Store :=
  es.foldl (fun st e => fwdAddFlat st e.1 e.2) emptyStore

/-- Fold a list of already-split flat entries through the reverse loader. -/
def revStoreOfEntries (es : List (Text × Text)) : Store :=
  es.foldl (fun st e => revAddFlat st e.1 e.2) emptyStore

/-- Continuation `\s*=\s*\[` of the glossary section pattern: after the first
bracket group, expect optional whitespace, `=`, optional whitespace, `[`, and
return the remainder. -/
def parseMid (l : Text) : Option Text :=
  match l.dropWhile Char.isWhitespace with
  | '=' :: r =>
    match r.dropWhile Char.isWhitespace with
    | '[' :: rest => some rest
    | _ => none
  | _ => none

/-- Lazy scan for the first group of `^\[(.+?)\]\s*=\s*\[`: find the earliest
`]` preceded by a non-empty group such that the continuation parses; on
failure the `]` is absorbed into the group and scanning resumes (regex
backtracking for a lazy group). -/
def findGroup1 : Text → Text → Option (Text × Text)
  | _, [] => none
  | acc, ']' :: rest =>
    if acc ≠ [] then
      match parseMid rest with
      | some r2 => some (acc.reverse, r2)
      | none => findGroup1 (']' :: acc) rest
    else findGroup1 (']' :: acc) rest
  | acc, c :: rest => findGroup1 (c :: acc) rest

/-- The loaders' section-entry pattern `^\[(.+?)\]\s*=\s*\[(.+?)\]$`, applied
to a stripped glossary line.  The second lazy group with the `$` anchor
succeeds exactly when the remainder ends in `]` with at least one character
before it. -/
def parseGlossarySectionLine (line : Text) : Option (Text × Text) :=
  match line with
  | '[' :: r =>
    match findGroup1 [] r with
    | some (g1, r2) =>
      match r2.reverse with
      | ']' :: g2rev => if g2rev ≠ [] then some (g1, g2rev.reverse) else none
      | _ => none
    | none => none
  | _ => none

/-- One glossary line through the forward loader (`load_library`'s loop
body): strip, skip blanks and `#` comments, try the section pattern, then
split flat entries at the first `=`. -/
def loadLineFwd (st : Store) (raw : Text) : Store :=
  let line := stripLC raw
  if line = [] then st
  else if line.head? = some '#' then st
  else
    match parseGlossarySectionLine line with
    | some (g1, g2) =>
      { st with sectionTranslations :=
          dictInsert st.sectionTranslations (stripLC g1) (stripLC g2) }
    | none =>
      if '=' ∈ line then
        fwdAddFlat st (stripLC (splitFirst '=' line).1)
          (stripLC (splitFirst '=' line).2)
      else st

/-- One glossary line through the reverse loader (`_load_library`): the same
grammar, with source and target swapped in every map. -/
def loadLineRev (st : Store) (raw : Text) : Store :=
  let line := stripLC raw
  if line = [] then st
  else if line.head? = some '#' then st
  else
    match parseGlossarySectionLine line with
    | some (g1, g2) =>
      { st with sectionTranslations :=
          dictInsert st.sectionTranslations (stripLC g2) (stripLC g1) }
    | none =>
      if '=' ∈ line then
        revAddFlat st (stripLC (splitFirst '=' line).1)
          (stripLC (splitFirst '=' line).2)
      else st

/-- `TranslationLibrary.load_library`: `none` models the case in which no
candidate glossary path exists — the loader prints a warning and returns with
every table left empty (it never raises); otherwise the glossary text is
split into lines and folded through `loadLineFwd`. -/
def loadForward (content : Option Text) : Store :=
  match content with
  | none => emptyStore
  | some text => (splitOnChar '\n' text).foldl loadLineFwd emptyStore

/-- `ReverseTranslationLibrary._load_library`, same degraded behaviour on a
missing glossary. -/
def loadReverse (content : Option Text) : Store :=
  match content with
  | none => emptyStore
  | some text => (splitOnChar '\n' text).foldl loadLineRev emptyStore

/-! ### Value translation -/

/-- The movement-type enum list checked verbatim inside
`INITranslator.translate_value`. -/
def movementValues : List Text :=
  [lc "LAND", lc "WATER", lc "HOVER", lc "AIR", lc "OVER_CLIFF"]

/-- Apply every pattern of the priority list in order, substituting each key
by its mapped value (`pattern.sub` over `self.sorted_keys`; the
`pattern.search` pre-check in the source only feeds the statistics counter
and does not change the resulting string). -/
def applyPatterns (d : List (Text × Text)) (text : Text) : Text :=
  (sortedKeys d).foldl (fun acc k => subWord k (dictGetD d k k) acc) text

/-- `INITranslator.translate_value`: lowercased booleans, then the movement
enums, then `AUTO`/`NONE`, each through the literal-value map; all other
values go through the free-text patterns of the key map. -/
def translateValue (lib : Store) (value : Text) : Text :=
  if lowerLC value = lc "true" ∨ lowerLC value = lc "false" then
    getValueTranslation lib (lowerLC value)
  else if value ∈ movementValues then
    getValueTranslation lib value
  else if value = lc "AUTO" ∨ value = lc "NONE" then
    getValueTranslation lib value
  else
    applyPatterns lib.translations value

/-- `ReverseTranslator._translate_single_value`: exact literal-map match
first (only counts if it changed the value), else free-text substitution
(`translate_in_text`). -/
def translateSingleValueRev (lib : Store) (value : Text) : Text :=
  let translated := getValueTranslation lib value
  if translated ≠ value then translated
  else applyPatterns lib.translations value

/-- `ReverseTranslator._translate_value`: a value containing a comma is split
on commas, each piece stripped and translated independently, and the pieces
are rejoined with a comma and a single space. -/
def translateValueRev (lib : Store) (value : Text) : Text :=
  if ',' ∈ value then
    List.intercalate (lc ", ")
      (((splitOnChar ',' value).map stripLC).map (translateSingleValueRev lib))
  else translateSingleValueRev lib value

/-! ### The reverse structural line rewriter (`反向翻译脚本.py`) -/

/-- Is the character one of the key-value separators `:` `=`? -/
def isSepChar (c : Char) : Bool := c == ':' || c == '='

/-- `SECTION_PATTERN = ^(\s*)\[([^\]]+)\](\s*)$`: leading whitespace, a
bracketed non-empty body without `]`, trailing whitespace only.  Returns
`(indent, body, trailing)`. -/
def parseSectionLine (line : Text) : Option (Text × Text × Text) :=
  let ind := line.takeWhile Char.isWhitespace
  match line.dropWhile Char.isWhitespace with
  | '[' :: r =>
    let body := r.takeWhile (fun c => c != ']')
    match r.dropWhile (fun c => c != ']') with
    | ']' :: after =>
      if body = [] then none
      else if after.all Char.isWhitespace then some (ind, body, after)
      else none
    | _ => none
  | _ => none

/-- `KV_PATTERN = ^(\s*)([^:=#\[]+?)([:=])(.*?)(\s*)$`: the greedy leading
`\s*` plus a lazy key group up to the first separator (the key group may not
contain `#` or `[`; if the whole pre-separator segment is whitespace, the
backtracking regex leaves its last character to the mandatory key group); the
lazy value group leaves the maximal whitespace suffix to the final group.
Returns `(indent, keyRaw, separator, valueRaw, trailing)`. -/
def parseKVLine (line : Text) : Option (Text × Text × Char × Text × Text) :=
  let seg := line.takeWhile (fun c => !isSepChar c)
  match line.dropWhile (fun c => !isSepChar c) with
  | [] => none
  | sep :: rest2 =>
    if seg.any (fun c => c == '#' || c == '[') then none
    else
      let ind0 := seg.takeWhile Char.isWhitespace
      let kRaw := seg.dropWhile Char.isWhitespace
      let value := dropTrailingWS rest2
      let trail := trailingWS rest2
      if kRaw ≠ [] then some (ind0, kRaw, sep, value, trail)
      else
        match ind0.reverse with
        | [] => none
        | w :: ws => some (ws.reverse, [w], sep, value, trail)

/-- `ReverseTranslator._translate_line` together with
`_translate_section_line` and `_translate_kv_line`: blank and comment lines
pass through; a section line has its bracket body (after splitting off an
inline `#` comment) looked up wholesale in the section map; a key-value line
is reassembled as `indent + key + separator + value + comment` — the raw
key and value are stripped, a value comment is re-attached after a single
space, and the trailing-whitespace group is dropped. -/
def revTranslateLine (lib : Store) (line : Text) : Text :=
  let stripped := stripLC line
  if stripped = [] then line
  else if stripped.head? = some '#' then line
  else
    match parseSectionLine line with
    | some (ind, nameRaw, trail) =>
      let nc :=
        if '#' ∈ nameRaw then
          (stripLC (splitFirst '#' nameRaw).1, '#' :: (splitFirst '#' nameRaw).2)
        else (nameRaw, [])
      ind ++ ('[' :: getSectionTranslation lib nc.1) ++ (']' :: trail) ++ nc.2
    | none =>
      match parseKVLine line with
      | some (ind, keyRaw, sep, valueRaw, _trail) =>
        let key := stripLC keyRaw
        let value0 := stripLC valueRaw
        let vc :=
          if '#' ∈ value0 then
            (stripLC (splitFirst '#' value0).1,
             ' ' :: '#' :: (splitFirst '#' value0).2)
          else (value0, [])
        ind ++ getTranslation lib key ++ sep :: (translateValueRev lib vc.1 ++ vc.2)
      | none => line

/-! ### The toolset rewriter's section-name translation (`查重工具.py`) -/

/-- `ReverseTranslator._translate_prefixed_section` (toolset): split once at
the first underscore, look up the prefix alone, and recombine with the suffix
untouched; if the prefix lookup is the identity, return the name unchanged. -/
def toolPrefixedSection (m : List (Text × Text)) (name : Text) : Text :=
  if '_' ∈ name then
    let pre := (splitFirst '_' name).1
    let suf := (splitFirst '_' name).2
    let tp := dictGetD m pre pre
    if tp = pre then name else tp ++ '_' :: suf
  else name

/-- The section-name branch of the toolset's `_translate_section_line`: a
full-name lookup that changes the name wins; otherwise, if the name contains
an underscore, the prefix fallback is attempted; otherwise the name passes
through. -/
def toolTranslateSectionName (m : List (Text × Text)) (name : Text) : Text :=
  let t := dictGetD m name name
  if t ≠ name then t
  else if '_' ∈ name then toolPrefixedSection m name
  else name

/-! ### The glossary duplicate checker (`查重翻译库.py`, `check_duplicates`) -/

/-- Entry roles recorded by the checker (and used for loader
classification). -/
inductive Role where
  | Section : Role
  | Key : Role
  | Literal : Role
deriving DecidableEq, Repr

/-- Checker pattern `^\s*\[([^\]]+)\]\s*=\s*\[([^\]]+)\]` (a prefix match;
both groups exclude `]`, so there is no backtracking). -/
def parseCheckerSection (line : Text) : Option (Text × Text) :=
  match line.dropWhile Char.isWhitespace with
  | '[' :: r =>
    let g1 := r.takeWhile (fun c => c != ']')
    match r.dropWhile (fun c => c != ']') with
    | ']' :: r2 =>
      if g1 = [] then none
      else
        match parseMid r2 with
        | some r3 =>
          let g2 := r3.takeWhile (fun c => c != ']')
          match r3.dropWhile (fun c => c != ']') with
          | ']' :: _ => if g2 = [] then none else some (g1, g2)
          | _ => none
        | none => none
    | _ => none
  | _ => none

/-- Checker pattern `^\s*([^#\s\[][^=]*)\s*=`: after leading whitespace, a
first key character that is not `#`, whitespace or `[`, then everything up to
the first following `=`.  Returns the stripped key. -/
def parseCheckerKey (line : Text) : Option Text :=
  match line.dropWhile Char.isWhitespace with
  | [] => none
  | c :: rest =>
    if c = '#' ∨ c = '[' then none
    else
      match rest.dropWhile (fun x => x != '=') with
      | '=' :: _ => some (stripLC (c :: rest.takeWhile (fun x => x != '=')))
      | _ => none

/-- `defaultdict(list)` append preserving first-insertion key order. -/
def ddAppend (m : List (Text × List (Nat × Role))) (k : Text)
    (e : Nat × Role) : List (Text × List (Nat × Role)) :=
  match m with
  | [] => [(k, [e])]
  | (k', es) :: rest =>
    if k' = k then (k', es ++ [e]) :: rest else (k', es) :: ddAppend rest k e

/-- The `key_entries` accumulation of `check_duplicates` for one line:
`rstrip` the line, skip blanks and comment lines, record a Section entry from
the section pattern or a Key entry from the key pattern (the source guards
`key` non-empty and not starting with `#`, and `'=' in line`, are re-checked
as in the source even though the patterns already ensure them).  The
independent duplicate-targets accumulation (`value_to_keys`) of the same
function is not modelled — it feeds only the duplicate-values report. -/
def checkerProcessLine (m : List (Text × List (Nat × Role))) (ln : Nat)
    (raw : Text) : List (Text × List (Nat × Role)) :=
  let line := dropTrailingWS raw
  if line = [] then m
  else if (stripLC line).head? = some '#' then m
  else
    match parseCheckerSection line with
    | some (g1, _g2) => ddAppend m (stripLC g1) (ln, Role.Section)
    | none =>
      match parseCheckerKey line with
      | some key =>
        if '=' ∈ line then
          if key ≠ [] ∧ key.head? ≠ some '#' then ddAppend m key (ln, Role.Key)
          else m
        else m
      | none => m

/-- `key_entries` over a whole glossary, lines numbered from 1. -/
def collectKeyEntries (lines : List Text) : List (Text × List (Nat × Role)) :=
  (lines.enumFrom 1).foldl (fun m p => checkerProcessLine m p.1 p.2) []

/-- `len(set(e[1] for e in entries))`. -/
def typesCount (es : List (Nat × Role)) : Nat :=
  ((es.map Prod.snd).dedup).length

/-- The loop body of the `duplicate_keys` computation for one
`(key, entries)` item: a source with more than one entry survives, except —
when `ignore` is set — a pair consisting of exactly one `Section` and one
`Key` entry; a surviving source keeps the list of all its line numbers. -/
def dupEntry (ignore : Bool) (p : Text × List (Nat × Role)) :
    Option (Text × List Nat) :=
  if p.2.length > 1 then
    if ignore ∧ typesCount p.2 = 2 ∧ p.2.length = 2 then none
    else some (p.1, p.2.map Prod.fst)
  else none

/-- The `duplicate_keys` map of `check_duplicates`. -/
def duplicateKeys (m : List (Text × List (Nat × Role))) (ignore : Bool) :
    List (Text × List Nat) :=
  m.filterMap (dupEntry ignore)

/-- Lookup in an association list produced by the checker. -/
def lookupEntries {α : Type} (m : List (Text × α)) (k : Text) : Option α :=
  (m.find? (fun p => p.1 == k)).map Prod.snd

/-! ## Supporting lemmas -/

theorem dictGetD_of_none {d : List (Text × Text)} {k dflt : Text}
    (h : dictGet d k = none) : dictGetD d k dflt = dflt := by
  simp [dictGetD, h]

theorem getLastD_mem_cons (th : Char) (tt : Text) :
    tt.getLastD th ∈ th :: tt := by
  rw [List.getLastD_eq_getLast?]
  cases h : tt.getLast? with
  | none => simp
  | some c =>
    have hc : c ∈ tt.getLast? := by simp [h]
    exact List.mem_cons_of_mem th (List.mem_of_mem_getLast? hc)

theorem isPrefixOf_self (l : Text) : l.isPrefixOf l = true := by
  simp [List.isPrefixOf_iff_prefix]

theorem subWordAux_nil (th : Char) (tt : Text) (tl : Char) (r : Text)
    (fuel : Nat) (prev : Option Char) :
    subWordAux th tt tl r fuel prev [] = [] := by
  cases fuel <;> rfl

theorem matchCond_self (th : Char) (tt : Text)
    (hw : ∀ c ∈ th :: tt, isWordChar c = true) :
    matchCond th tt (tt.getLastD th) none th tt = true := by
  have h1 : List.isPrefixOf (th :: tt) (th :: tt) = true := isPrefixOf_self _
  have h2 : isWordChar th = true := hw th (by simp)
  have h3 : isWordChar (tt.getLastD th) = true := hw _ (getLastD_mem_cons th tt)
  rw [List.getLastD_eq_getLast?] at h3
  simp [matchCond, bdry, wordAt, h1, h2, h3, List.drop_length]

theorem subWord_self (t r : Text) (ht : t ≠ [])
    (hw : ∀ c ∈ t, isWordChar c = true) : subWord t r t = r := by
  match t, ht with
  | th :: tt, _ =>
    show subWordAux th tt (tt.getLastD th) r (th :: tt).length none (th :: tt) = r
    have hc := matchCond_self th tt hw
    simp only [List.length_cons]
    rw [subWordAux, if_pos hc, List.drop_length, subWordAux_nil, List.append_nil]

theorem subWordAux_no_match (th : Char) (tt : Text) (tl : Char) (r : Text) :
    ∀ (s : Text) (fuel : Nat) (prev : Option Char), s.length ≤ fuel →
      hasMatchAux th tt tl prev s = false →
      subWordAux th tt tl r fuel prev s = s := by
  intro s
  induction s with
  | nil => intro fuel prev _ _; exact subWordAux_nil th tt tl r fuel prev
  | cons c rest ih =>
    intro fuel prev hf hm
    match fuel, hf with
    | f + 1, hf =>
      simp only [hasMatchAux, Bool.or_eq_false_iff] at hm
      rw [subWordAux, if_neg (by simp [hm.1])]
      have hrest : rest.length ≤ f := by
        simp only [List.length_cons] at hf; omega
      rw [ih f (some c) hrest hm.2]

theorem subWord_no_match (t r s : Text) (h : hasWordMatch t s = false) :
    subWord t r s = s := by
  match t with
  | [] => rfl
  | th :: tt =>
    exact subWordAux_no_match th tt (tt.getLastD th) r s s.length none
      (Nat.le_refl _) h

theorem foldl_subWord_no_match (f : Text → Text) :
    ∀ (l : List Text) (v : Text), (∀ k ∈ l, hasWordMatch k v = false) →
      l.foldl (fun acc k => subWord k (f k) acc) v = v := by
  intro l
  induction l with
  | nil => intro v _; rfl
  | cons k ks ih =>
    intro v h
    simp only [List.foldl_cons]
    rw [subWord_no_match k (f k) v (h k (by simp))]
    exact ih v (fun x hx => h x (by simp [hx]))

theorem applyPatterns_no_match (d : List (Text × Text)) (v : Text)
    (h : ∀ k ∈ sortedKeys d, hasWordMatch k v = false) :
    applyPatterns d v = v :=
  foldl_subWord_no_match (fun k => dictGetD d k k) (sortedKeys d) v h

theorem mem_insertByLenDesc {x a : Text} : ∀ {l : List Text},
    x ∈ insertByLenDesc a l ↔ x = a ∨ x ∈ l := by
  intro l
  induction l with
  | nil => simp [insertByLenDesc]
  | cons y ys ih =>
    simp only [insertByLenDesc]
    split
    · simp [List.mem_cons]
    · simp only [List.mem_cons, ih]
      tauto

theorem mem_foldl_insertByLenDesc : ∀ (l acc : List Text) (x : Text),
    x ∈ l.foldl (fun a y => insertByLenDesc y a) acc ↔ x ∈ acc ∨ x ∈ l := by
  intro l
  induction l with
  | nil => simp
  | cons y ys ih =>
    intro acc x
    simp only [List.foldl_cons]
    rw [ih]
    simp only [mem_insertByLenDesc, List.mem_cons]
    tauto

theorem mem_sortByLenDesc {x : Text} {l : List Text} :
    x ∈ sortByLenDesc l ↔ x ∈ l := by
  unfold sortByLenDesc
  rw [mem_foldl_insertByLenDesc]
  simp

theorem pairwise_insertByLenDesc {a : Text} : ∀ {l : List Text},
    l.Pairwise (fun u v => v.length ≤ u.length) →
    (insertByLenDesc a l).Pairwise (fun u v => v.length ≤ u.length) := by
  intro l
  induction l with
  | nil => intro _; simp [insertByLenDesc]
  | cons y ys ih =>
    intro h
    rw [List.pairwise_cons] at h
    simp only [insertByLenDesc]
    split
    · rename_i hlt
      rw [List.pairwise_cons]
      refine ⟨?_, List.pairwise_cons.mpr h⟩
      intro z hz
      rcases List.mem_cons.mp hz with rfl | hz
      · omega
      · have := h.1 z hz; omega
    · rename_i hge
      rw [List.pairwise_cons]
      refine ⟨?_, ih h.2⟩
      intro z hz
      rcases mem_insertByLenDesc.mp hz with rfl | hz
      · omega
      · exact h.1 z hz

theorem pairwise_foldl_insertByLenDesc : ∀ (l acc : List Text),
    acc.Pairwise (fun u v => v.length ≤ u.length) →
    (l.foldl (fun a y => insertByLenDesc y a) acc).Pairwise
      (fun u v => v.length ≤ u.length) := by
  intro l
  induction l with
  | nil => intro acc h; exact h
  | cons y ys ih =>
    intro acc h
    exact ih _ (pairwise_insertByLenDesc h)

theorem pairwise_sortByLenDesc (l : List Text) :
    (sortByLenDesc l).Pairwise (fun u v => v.length ≤ u.length) :=
  pairwise_foldl_insertByLenDesc l [] (by simp)

theorem mem_revSpecial_iff (e : Text) :
    e ∈ revSpecialTokens ↔ e ∈ fwdSpecialTokens ∨ e = lc "OVER_CLIFF_WATER" := by
  simp only [revSpecialTokens, fwdSpecialTokens, List.mem_cons,
    List.not_mem_nil, or_false]
  tauto

theorem movement_mem_revSpecial : ∀ x ∈ movementValues, x ∈ revSpecialTokens := by
  decide

/-! ## Claim theorems -/

/-- C1, counterexample: with Key-role entries `run ↦ X` and `running ↦ Y`,
translating the free-form value `running_fast` returns it unchanged rather
than producing `Y_fast` — the compiled patterns are `\b`-delimited and the
underscore is a word character, so neither glossary term matches inside
`running_fast`. -/
theorem c1_counterexample :
    translateValue (fwdStoreOfEntries [(lc "run", lc "X"), (lc "running", lc "Y")])
        (lc "running_fast") = lc "running_fast"
    ∧ lc "running_fast" ≠ lc "Y_fast" := by
  decide

/-- C1, amended: substitution happens only at word boundaries, so
`running_fast` (underscore = word character) is left untouched, while in
`running fast` the longer term `running` is substituted — yielding `Y fast`,
never the shorter `run` inside it and never both. -/
theorem c1_longest_match :
    translateValue (fwdStoreOfEntries [(lc "run", lc "X"), (lc "running", lc "Y")])
        (lc "running fast") = lc "Y fast"
    ∧ translateValue (fwdStoreOfEntries [(lc "run", lc "X"), (lc "running", lc "Y")])
        (lc "running_fast") = lc "running_fast" := by
  decide

/-- C2, counterexample: the glossary `ab ↦ c d`, `c ↦ e` has no duplicate
targets, yet the forward pass cascades (`ab` becomes `c d`, whose `c` is then
substituted by the next pattern, giving `e d`) and the reverse pass recovers
only `c d`, not the original source term `ab`. -/
theorem c2_counterexample :
    lc "c d" ≠ lc "e"
    ∧ dictGet (fwdStoreOfEntries [(lc "ab", lc "c d"), (lc "c", lc "e")]).translations
        (lc "ab") = some (lc "c d")
    ∧ translateValue (fwdStoreOfEntries [(lc "ab", lc "c d"), (lc "c", lc "e")])
        (lc "ab") = lc "e d"
    ∧ translateSingleValueRev (revStoreOfEntries [(lc "ab", lc "c d"), (lc "c", lc "e")])
        (translateValue (fwdStoreOfEntries [(lc "ab", lc "c d"), (lc "c", lc "e")])
          (lc "ab")) = lc "c d"
    ∧ lc "c d" ≠ lc "ab" := by
  decide

/-- C2, amended: for a glossary consisting of a single Key-role entry
`(s, t)` — `s`, `t` non-empty word-character tokens, `s ≠ t`, `s` not a
reserved literal token and not a case variant of `true`/`false` — reverse
translation of the forward translation of the source term `s` returns `s`.
(With more entries the law can fail even without duplicate targets, because
substitution cascades through targets; see the counterexample.) -/
theorem c2_roundtrip (s t : Text) (hs : s ≠ []) (ht : t ≠ [])
    (hws : ∀ c ∈ s, isWordChar c = true) (hwt : ∀ c ∈ t, isWordChar c = true)
    (hne : s ≠ t)
    (h1 : lowerLC s ≠ lc "true") (h2 : lowerLC s ≠ lc "false")
    (h3 : s ∉ revSpecialTokens) :
    translateSingleValueRev (revStoreOfEntries [(s, t)])
      (translateValue (fwdStoreOfEntries [(s, t)]) s) = s := by
  have hsf : s ∉ fwdSpecialTokens :=
    fun hm => h3 ((mem_revSpecial_iff s).mpr (Or.inl hm))
  have hfl : fwdIsLiteralSource s = false := by
    simp [fwdIsLiteralSource, hsf]
  have hrl : revIsLiteralSource s = false := by
    simp [revIsLiteralSource, h3]
  have hfwd : fwdStoreOfEntries [(s, t)] = ⟨[(s, t)], [], []⟩ := by
    simp [fwdStoreOfEntries, fwdAddFlat, hfl, emptyStore, dictInsert]
  have hrev : revStoreOfEntries [(s, t)] = ⟨[(t, s)], [], []⟩ := by
    simp [revStoreOfEntries, revAddFlat, hrl, emptyStore, dictInsert]
  have hkeys : sortedKeys [(s, t)] = [s] := by
    unfold sortedKeys
    have hflt : ([(s, t)].map Prod.fst).filter
        (fun k => decide (k ∉ [(s, t)].map Prod.snd)) = [s] := by
      simp [List.filter_cons, hne]
    rw [hflt]
    rfl
  have hval : dictGetD [(s, t)] s s = t := by
    simp [dictGetD, dictGet]
  have hfwdval : translateValue (⟨[(s, t)], [], []⟩ : Store) s = t := by
    unfold translateValue
    rw [if_neg (by tauto)]
    rw [if_neg (fun hm => h3 (movement_mem_revSpecial s hm))]
    rw [if_neg ?hAN]
    case hAN =>
      rintro (rfl | rfl)
      · exact h3 (by decide)
      · exact h3 (by decide)
    show applyPatterns [(s, t)] s = t
    unfold applyPatterns
    rw [hkeys]
    simp only [List.foldl_cons, List.foldl_nil]
    rw [hval]
    exact subWord_self s t hs hws
  rw [hfwd, hrev, hfwdval]
  have hkeys2 : sortedKeys [(t, s)] = [t] := by
    unfold sortedKeys
    have hflt : ([(t, s)].map Prod.fst).filter
        (fun k => decide (k ∉ [(t, s)].map Prod.snd)) = [t] := by
      simp [List.filter_cons]
      exact fun e => hne e.symm
    rw [hflt]
    rfl
  have hval2 : dictGetD [(t, s)] t t = s := by
    simp [dictGetD, dictGet]
  have hgv : getValueTranslation (⟨[(t, s)], [], []⟩ : Store) t = t := rfl
  simp only [translateSingleValueRev]
  rw [if_neg (fun h => h hgv)]
  show applyPatterns [(t, s)] t = s
  unfold applyPatterns
  rw [hkeys2]
  simp only [List.foldl_cons, List.foldl_nil]
  rw [hval2]
  exact subWord_self t s ht hwt

/-- C2, witness for the amended round-trip law at the single entry
`alpha ↦ beta`. -/
theorem c2_roundtrip_witness :
    translateSingleValueRev (revStoreOfEntries [(lc "alpha", lc "beta")])
      (translateValue (fwdStoreOfEntries [(lc "alpha", lc "beta")]) (lc "alpha"))
      = lc "alpha" :=
  c2_roundtrip (lc "alpha") (lc "beta") (by decide) (by decide) (by decide)
    (by decide) (by decide) (by decide) (by decide) (by decide)

/-- C3, counterexample: the main reverse rewriter
(`反向翻译脚本.py._translate_section_line`) performs no prefix fallback — with
the section map containing `pre ↦ PRE`, the section line `[pre_x]` passes
through unchanged instead of becoming `[PRE_x]`. -/
theorem c3_counterexample :
    getSectionTranslation (⟨[], [(lc "pre", lc "PRE")], []⟩ : Store) (lc "pre")
        = lc "PRE"
    ∧ revTranslateLine (⟨[], [(lc "pre", lc "PRE")], []⟩ : Store) (lc "[pre_x]")
        = lc "[pre_x]"
    ∧ lc "[pre_x]" ≠ lc "[PRE_x]" := by
  decide

/-- C3, amended: the full-match-then-prefix-fallback chain is implemented only
by the toolset rewriter (`查重工具.py`): a full-name lookup that changes the
name wins outright; only when the lookup is the identity and the name
contains an underscore is the name split once at the first underscore and the
prefix alone looked up, giving `translatedPrefix + "_" + suffix` on success;
otherwise the name passes through unchanged.  (The two main scripts perform
only the full-name lookup.) -/
theorem c3_section_fallback (m : List (Text × Text)) (name p s tp : Text) :
    (dictGetD m name name ≠ name →
       toolTranslateSectionName m name = dictGetD m name name)
    ∧ (dictGetD m name name = name → '_' ∉ name →
       toolTranslateSectionName m name = name)
    ∧ (dictGetD m name name = name → '_' ∈ name → splitFirst '_' name = (p, s) →
       dictGetD m p p = tp →
       toolTranslateSectionName m name = if tp = p then name else tp ++ '_' :: s) := by
  refine ⟨?_, ?_, ?_⟩
  · intro h
    unfold toolTranslateSectionName
    rw [if_pos h]
  · intro h hn
    unfold toolTranslateSectionName
    rw [if_neg (by simp [h]), if_neg hn]
  · intro h hu hsplit htp
    unfold toolTranslateSectionName
    rw [if_neg (by simp [h]), if_pos hu]
    unfold toolPrefixedSection
    rw [if_pos hu]
    have hp : (splitFirst '_' name).1 = p := by rw [hsplit]
    have hs : (splitFirst '_' name).2 = s := by rw [hsplit]
    rw [hp, hs]
    show (if dictGetD m p p = p then name else dictGetD m p p ++ '_' :: s)
      = if tp = p then name else tp ++ '_' :: s
    rw [htp]

/-- C3, witness: with the section map `a ↦ A`, the toolset rewriter translates
the section name `a_zz` to `A_zz` through the prefix fallback. -/
theorem c3_section_fallback_witness :
    toolTranslateSectionName [(lc "a", lc "A")] (lc "a_zz") = lc "A_zz" := by
  have h := (c3_section_fallback [(lc "a", lc "A")] (lc "a_zz") (lc "a") (lc "zz")
    (lc "A")).2.2 (by decide) (by decide) (by decide) (by decide)
  rw [h]
  decide

/-- C5, counterexample: with no glossary found the loader returns the empty
store, but the value translator still rewrites `TRUE` to `true` (the boolean
branch lowercases before the — empty — literal-map lookup), so not every
lookup returns its input unchanged. -/
theorem c5_counterexample :
    translateValue (loadForward none) (lc "TRUE") = lc "true"
    ∧ lc "true" ≠ lc "TRUE" := by
  decide

/-- C5, amended: when no candidate glossary path exists the loader returns
the empty store without raising, and every section, key and literal lookup is
the identity; the free-text value translator is the identity on every value
except case variants of `true`/`false`, which it lowercases even against the
empty store. -/
theorem c5_missing_glossary :
    loadForward none = emptyStore
    ∧ (∀ s, getSectionTranslation emptyStore s = s)
    ∧ (∀ k, getTranslation emptyStore k = k)
    ∧ (∀ v, getValueTranslation emptyStore v = v)
    ∧ (∀ v, lowerLC v ≠ lc "true" → lowerLC v ≠ lc "false" →
        translateValue emptyStore v = v) := by
  refine ⟨rfl, fun s => rfl, fun k => rfl, fun v => rfl, ?_⟩
  intro v h1 h2
  unfold translateValue
  rw [if_neg (by tauto)]
  by_cases h3 : v ∈ movementValues
  · rw [if_pos h3]; rfl
  · rw [if_neg h3]
    by_cases h4 : v = lc "AUTO" ∨ v = lc "NONE"
    · rw [if_pos h4]; rfl
    · rw [if_neg h4]; rfl

/-- C5, witness: the identity behaviour of the empty store at a value that is
not a boolean spelling. -/
theorem c5_missing_glossary_witness :
    translateValue emptyStore (lc "速度") = lc "速度" :=
  c5_missing_glossary.2.2.2.2 (lc "速度") (by decide) (by decide)

/-- C6, counterexample: in the dictionary `a ↦ b`, `cc ↦ a` no term equals its
own mapped value, yet `a` is removed from the priority list because it occurs
among the mapped values of another entry — the code filters
`k not in translations.values()`, not only self-maps. -/
theorem c6_counterexample :
    dictGet [(lc "a", lc "b"), (lc "cc", lc "a")] (lc "a") = some (lc "b")
    ∧ lc "b" ≠ lc "a"
    ∧ sortedKeys [(lc "a", lc "b"), (lc "cc", lc "a")] = [lc "cc"]
    ∧ lc "a" ∉ sortedKeys [(lc "a", lc "b"), (lc "cc", lc "a")] := by
  decide

/-- C6, amended: the priority list contains exactly the dictionary keys that
do not occur among the dictionary's mapped values (of any entry, not only
their own), and it is sorted by descending character length (the underlying
insertion is stable, hence deterministic). -/
theorem c6_priority_list (d : List (Text × Text)) (k : Text) :
    (k ∈ sortedKeys d ↔ k ∈ d.map Prod.fst ∧ k ∉ d.map Prod.snd)
    ∧ (sortedKeys d).Pairwise (fun u v => v.length ≤ u.length) := by
  constructor
  · unfold sortedKeys
    rw [mem_sortByLenDesc]
    simp [List.mem_filter]
  · exact pairwise_sortByLenDesc _

/-- C7, counterexample: the forward value translator never splits on commas —
with literal entries for `LAND` and `WATER`, the forward direction leaves the
comma list `LAND,WATER` completely unchanged instead of translating the
elements and rejoining with a comma and a single space. -/
theorem c7_counterexample :
    translateValue (fwdStoreOfEntries [(lc "LAND", lc "莱"), (lc "WATER", lc "水")])
        (lc "LAND,WATER") = lc "LAND,WATER"
    ∧ lc "LAND,WATER" ≠ lc "莱, 水"
    ∧ translateValueRev (revStoreOfEntries [(lc "LAND", lc "莱"), (lc "WATER", lc "水")])
        (lc "莱,水") = lc "LAND, WATER" := by
  decide

/-- C7, amended: only the reverse rewriter splits a comma-containing value on
commas, translates each stripped element independently, and rejoins with a
comma and exactly one space; consequently its output depends only on the
stripped elements, not on the input's original spacing. -/
theorem c7_comma_join (lib : Store) (v1 v2 : Text)
    (h1 : ',' ∈ v1) (h2 : ',' ∈ v2)
    (h : (splitOnChar ',' v1).map stripLC = (splitOnChar ',' v2).map stripLC) :
    translateValueRev lib v1 =
      List.intercalate (lc ", ")
        (((splitOnChar ',' v1).map stripLC).map (translateSingleValueRev lib))
    ∧ translateValueRev lib v1 = translateValueRev lib v2 := by
  constructor
  · unfold translateValueRev
    rw [if_pos h1]
  · unfold translateValueRev
    rw [if_pos h1, if_pos h2, h]

/-- C7, witness: `a ,b` and `a,  b` normalize to the same output. -/
theorem c7_comma_join_witness :
    translateValueRev emptyStore (lc "a ,b")
      = translateValueRev emptyStore (lc "a,  b") :=
  (c7_comma_join emptyStore (lc "a ,b") (lc "a,  b") (by decide) (by decide)
    (by decide)).2

/-- C9, counterexample: the literal token `False` has no entry in the empty
dictionary, yet re-running the forward value translator changes it to
`false` — the boolean branch lowercases regardless of dictionary content. -/
theorem c9_counterexample :
    dictGet emptyStore.valueTranslations (lc "False") = none
    ∧ translateValue emptyStore (lc "False") = lc "false"
    ∧ lc "false" ≠ lc "False" := by
  decide

/-- C9, amended: re-running same-direction translation never changes a
section name, key, or value that has no matching source-language entry — no
section-map entry, no key-map entry, no literal-map entry and no
word-boundary pattern match respectively — except that a case variant of
`true`/`false` is still lowercased by the boolean branch (see the
counterexample), so such values are excluded. -/
theorem c9_idempotent (lib : Store) (s k v : Text)
    (hs : dictGet lib.sectionTranslations s = none)
    (hk : dictGet lib.translations k = none)
    (hv1 : lowerLC v ≠ lc "true") (hv2 : lowerLC v ≠ lc "false")
    (hv3 : dictGet lib.valueTranslations v = none)
    (hv4 : ∀ t ∈ sortedKeys lib.translations, hasWordMatch t v = false) :
    getSectionTranslation lib s = s ∧ getTranslation lib k = k
      ∧ translateValue lib v = v := by
  refine ⟨dictGetD_of_none hs, dictGetD_of_none hk, ?_⟩
  unfold translateValue
  rw [if_neg (by tauto)]
  by_cases h3 : v ∈ movementValues
  · rw [if_pos h3]; exact dictGetD_of_none hv3
  · rw [if_neg h3]
    by_cases h4 : v = lc "AUTO" ∨ v = lc "NONE"
    · rw [if_pos h4]; exact dictGetD_of_none hv3
    · rw [if_neg h4]; exact applyPatterns_no_match _ _ hv4

/-- C9, witness: with the dictionary `speed ↦ 速度`, the already-translated
tokens `其他` (section), `速度` (key) and `速度` (value) are unchanged by a
second forward pass. -/
theorem c9_idempotent_witness :
    getSectionTranslation (fwdStoreOfEntries [(lc "speed", lc "速度")]) (lc "其他")
        = lc "其他"
    ∧ getTranslation (fwdStoreOfEntries [(lc "speed", lc "速度")]) (lc "速度")
        = lc "速度"
    ∧ translateValue (fwdStoreOfEntries [(lc "speed", lc "速度")]) (lc "速度")
        = lc "速度" :=
  c9_idempotent (fwdStoreOfEntries [(lc "speed", lc "速度")]) (lc "其他")
    (lc "速度") (lc "速度") (by decide) (by decide) (by decide) (by decide)
    (by decide) (by decide)

/-- C10, counterexample: the flat glossary entry with source
`OVER_CLIFF_WATER` is classified as a Key by the forward loader but as a
Literal by the reverse loader — the two reserved literal-token sets differ at
exactly this token. -/
theorem c10_counterexample :
    fwdIsLiteralSource (lc "OVER_CLIFF_WATER") = false
    ∧ revIsLiteralSource (lc "OVER_CLIFF_WATER") = true
    ∧ (fwdAddFlat emptyStore (lc "OVER_CLIFF_WATER") (lc "X")).translations
        = [(lc "OVER_CLIFF_WATER", lc "X")]
    ∧ (revAddFlat emptyStore (lc "OVER_CLIFF_WATER") (lc "X")).translations
        = [] := by
  decide

/-- C10, amended: for every flat-form source term other than
`OVER_CLIFF_WATER`, the forward loader assigns role Literal exactly when the
reverse loader does. -/
theorem c10_role_agreement (e : Text) (h : e ≠ lc "OVER_CLIFF_WATER") :
    fwdIsLiteralSource e = revIsLiteralSource e := by
  unfold fwdIsLiteralSource revIsLiteralSource
  rw [decide_eq_decide]
  constructor
  · intro hm
    exact (mem_revSpecial_iff e).mpr (Or.inl hm)
  · intro hm
    rcases (mem_revSpecial_iff e).mp hm with hm | hm
    · exact hm
    · exact absurd hm h

/-- C10, witness: the two loaders agree at `LAND`. -/
theorem c10_role_agreement_witness :
    fwdIsLiteralSource (lc "LAND") = revIsLiteralSource (lc "LAND") :=
  c10_role_agreement (lc "LAND") (by decide)

/-! ## Checker lemmas (for C4) -/

theorem keys_ddAppend_mem (m : List (Text × List (Nat × Role))) (k x : Text)
    (e : Nat × Role) :
    x ∈ (ddAppend m k e).map Prod.fst ↔ x ∈ m.map Prod.fst ∨ x = k := by
  induction m with
  | nil => simp [ddAppend]
  | cons p rest ih =>
    obtain ⟨k', es⟩ := p
    simp only [ddAppend]
    split
    · rename_i hk
      simp only [List.map_cons, List.mem_cons]
      subst hk
      tauto
    · simp only [List.map_cons, List.mem_cons, ih]
      tauto

theorem nodup_keys_ddAppend {m : List (Text × List (Nat × Role))} (k : Text)
    (e : Nat × Role) (h : (m.map Prod.fst).Nodup) :
    ((ddAppend m k e).map Prod.fst).Nodup := by
  induction m with
  | nil => simp [ddAppend]
  | cons p rest ih =>
    obtain ⟨k', es⟩ := p
    simp only [List.map_cons, List.nodup_cons] at h
    simp only [ddAppend]
    split
    · simp only [List.map_cons, List.nodup_cons]
      exact h
    · rename_i hk
      simp only [List.map_cons, List.nodup_cons]
      refine ⟨?_, ih h.2⟩
      intro hx
      rcases (keys_ddAppend_mem rest k k' e).mp hx with hx | hx
      · exact h.1 hx
      · exact hk hx

theorem nodup_keys_checkerProcessLine
    (m : List (Text × List (Nat × Role))) (ln : Nat) (raw : Text)
    (h : (m.map Prod.fst).Nodup) :
    ((checkerProcessLine m ln raw).map Prod.fst).Nodup := by
  simp only [checkerProcessLine]
  repeat' split
  all_goals first
    | exact h
    | exact nodup_keys_ddAppend _ _ h

theorem nodup_keys_checker_foldl : ∀ (ps : List (Nat × Text))
    (m : List (Text × List (Nat × Role))), (m.map Prod.fst).Nodup →
    ((ps.foldl (fun m p => checkerProcessLine m p.1 p.2) m).map Prod.fst).Nodup := by
  intro ps
  induction ps with
  | nil => intro m h; exact h
  | cons p rest ih =>
    intro m h
    exact ih _ (nodup_keys_checkerProcessLine m p.1 p.2 h)

theorem nodup_keys_collect (lines : List Text) :
    ((collectKeyEntries lines).map Prod.fst).Nodup :=
  nodup_keys_checker_foldl (lines.enumFrom 1) [] (by simp)

theorem dupEntry_fst {ig : Bool} {p : Text × List (Nat × Role)}
    {b : Text × List Nat} (h : dupEntry ig p = some b) : b.1 = p.1 := by
  unfold dupEntry at h
  split at h
  · split at h
    · exact absurd h (by simp)
    · cases h; rfl
  · exact absurd h (by simp)

theorem lookupEntries_duplicateKeys_not_mem (ig : Bool) :
    ∀ (m : List (Text × List (Nat × Role))) (foo : Text),
      foo ∉ m.map Prod.fst →
      lookupEntries (duplicateKeys m ig) foo = none := by
  intro m
  induction m with
  | nil => intro foo _; rfl
  | cons q rest ih =>
    intro foo h
    simp only [List.map_cons, List.mem_cons, not_or] at h
    show lookupEntries (List.filterMap (dupEntry ig) (q :: rest)) foo = none
    rw [List.filterMap_cons]
    rcases hq : dupEntry ig q with _ | b
    · exact ih foo h.2
    · have hb : b.1 = q.1 := dupEntry_fst hq
      show lookupEntries (b :: List.filterMap (dupEntry ig) rest) foo = none
      unfold lookupEntries
      rw [List.find?_cons_of_neg _ (by
        intro hc
        rw [hb, beq_iff_eq] at hc
        exact h.1 hc.symm)]
      exact ih foo h.2

theorem lookupEntries_duplicateKeys_some (ig : Bool) :
    ∀ (m : List (Text × List (Nat × Role))) (foo : Text)
      (es : List (Nat × Role)), (m.map Prod.fst).Nodup →
      lookupEntries m foo = some es →
      lookupEntries (duplicateKeys m ig) foo
        = (dupEntry ig (foo, es)).map Prod.snd := by
  intro m
  induction m with
  | nil => intro foo es _ h; simp [lookupEntries] at h
  | cons q rest ih =>
    intro foo es hnd h
    simp only [List.map_cons, List.nodup_cons] at hnd
    cases hbeq : q.1 == foo with
    | true =>
      have hkeq : q.1 = foo := by rwa [beq_iff_eq] at hbeq
      have hes : q.2 = es := by
        unfold lookupEntries at h
        rw [List.find?_cons_of_pos _ (by simp [hbeq])] at h
        simpa using h
      have hqq : q = (foo, es) := Prod.ext hkeq hes
      rw [hqq]
      show lookupEntries (List.filterMap (dupEntry ig) ((foo, es) :: rest)) foo = _
      rw [List.filterMap_cons]
      rcases hq2 : dupEntry ig (foo, es) with _ | b
      · show lookupEntries (List.filterMap (dupEntry ig) rest) foo = none
        exact lookupEntries_duplicateKeys_not_mem ig rest foo (hkeq ▸ hnd.1)
      · have hb : b.1 = foo := dupEntry_fst hq2
        show lookupEntries (b :: List.filterMap (dupEntry ig) rest) foo = some b.2
        unfold lookupEntries
        rw [List.find?_cons_of_pos _ (by simp [hb])]
        rfl
    | false =>
      have h' : lookupEntries rest foo = some es := by
        unfold lookupEntries at h
        rwa [List.find?_cons_of_neg _ (by simp [hbeq])] at h
      show lookupEntries (List.filterMap (dupEntry ig) (q :: rest)) foo = _
      rw [List.filterMap_cons]
      rcases hq2 : dupEntry ig q with _ | b
      · exact ih foo es hnd.2 h'
      · have hb : b.1 = q.1 := dupEntry_fst hq2
        show lookupEntries (b :: List.filterMap (dupEntry ig) rest) foo
          = Option.map Prod.snd (dupEntry ig (foo, es))
        unfold lookupEntries
        rw [List.find?_cons_of_neg _ (by
          intro hc
          rw [hb] at hc
          rw [hbeq] at hc
          exact Bool.false_ne_true hc)]
        exact ih foo es hnd.2 h'

theorem keys_duplicateKeys_sublist (ig : Bool) :
    ∀ (m : List (Text × List (Nat × Role))),
      ((duplicateKeys m ig).map Prod.fst).Sublist (m.map Prod.fst) := by
  intro m
  induction m with
  | nil => simp [duplicateKeys]
  | cons q rest ih =>
    show ((List.filterMap (dupEntry ig) (q :: rest)).map Prod.fst).Sublist _
    rw [List.filterMap_cons]
    rcases hq : dupEntry ig q with _ | b
    · exact ih.cons q.1
    · show ((b :: List.filterMap (dupEntry ig) rest).map Prod.fst).Sublist
        (q.1 :: rest.map Prod.fst)
      simp only [List.map_cons]
      rw [dupEntry_fst hq]
      exact ih.cons₂ q.1

/-- C4: a source with exactly two Key-role entries yields exactly one
duplicate-sources item carrying both line numbers; a source whose only
collision is one Section-role and one Key-role entry is exempted when
`ignoreSectionKeyHomonym` is set; and the duplicate-sources map holds at most
one item per source (its keys are duplicate-free). -/
theorem c4_conflict_detection (lines : List Text) (foo : Text) (l1 l2 : Nat) :
    (lookupEntries (collectKeyEntries lines) foo
        = some [(l1, Role.Key), (l2, Role.Key)] →
      lookupEntries (duplicateKeys (collectKeyEntries lines) true) foo
        = some [l1, l2])
    ∧ (lookupEntries (collectKeyEntries lines) foo
        = some [(l1, Role.Section), (l2, Role.Key)] →
      lookupEntries (duplicateKeys (collectKeyEntries lines) true) foo = none)
    ∧ ((duplicateKeys (collectKeyEntries lines) true).map Prod.fst).Nodup := by
  have hnd := nodup_keys_collect lines
  refine ⟨?_, ?_, ?_⟩
  · intro h
    rw [lookupEntries_duplicateKeys_some true _ foo _ hnd h]
    rfl
  · intro h
    rw [lookupEntries_duplicateKeys_some true _ foo _ hnd h]
    rfl
  · exact (keys_duplicateKeys_sublist true _).nodup hnd

/-! ## Line-rewriter lemmas (for C8) -/

theorem takeWhile_append_all {p : Char → Bool} {l1 : Text} (l2 : Text)
    (h : ∀ c ∈ l1, p c = true) :
    (l1 ++ l2).takeWhile p = l1 ++ l2.takeWhile p := by
  induction l1 with
  | nil => simp
  | cons c cs ih =>
    simp only [List.cons_append,
      List.takeWhile_cons_of_pos (h c (by simp))]
    rw [ih (fun x hx => h x (by simp [hx]))]

theorem dropWhile_append_all {p : Char → Bool} {l1 : Text} (l2 : Text)
    (h : ∀ c ∈ l1, p c = true) :
    (l1 ++ l2).dropWhile p = l2.dropWhile p := by
  induction l1 with
  | nil => simp
  | cons c cs ih =>
    simp only [List.cons_append,
      List.dropWhile_cons_of_pos (h c (by simp))]
    exact ih (fun x hx => h x (by simp [hx]))

theorem ws_not_sep {c : Char} (h : c.isWhitespace = true) :
    isSepChar c = false := by
  simp only [Char.isWhitespace, Bool.or_eq_true, decide_eq_true_eq] at h
  rcases h with ((h | h) | h) | h <;> subst h <;> decide

theorem ws_not_hash_bracket {c : Char} (h : c.isWhitespace = true) :
    (c == '#' || c == '[') = false := by
  simp only [Char.isWhitespace, Bool.or_eq_true, decide_eq_true_eq] at h
  rcases h with ((h | h) | h) | h <;> subst h <;> decide

theorem dropTrailingWS_eq_self {l : Text}
    (h : ∀ c, l.getLast? = some c → c.isWhitespace = false) :
    dropTrailingWS l = l := by
  unfold dropTrailingWS
  cases hr : l.reverse with
  | nil =>
    have : l = [] := by simpa using congrArg List.reverse hr
    simp [this]
  | cons c cs =>
    have hc : l.getLast? = some c := by
      rw [List.getLast?_eq_head?_reverse, hr]
      rfl
    rw [List.dropWhile_cons_of_neg (by simp [h c hc])]
    rw [← hr, List.reverse_reverse]

theorem trailingWS_eq_nil {l : Text}
    (h : ∀ c, l.getLast? = some c → c.isWhitespace = false) :
    trailingWS l = [] := by
  unfold trailingWS
  cases hr : l.reverse with
  | nil => rfl
  | cons c cs =>
    have hc : l.getLast? = some c := by
      rw [List.getLast?_eq_head?_reverse, hr]
      rfl
    rw [List.takeWhile_cons_of_neg (by simp [h c hc])]
    rfl

theorem stripLC_eq_self {l : Text}
    (h1 : ∀ c, l.head? = some c → c.isWhitespace = false)
    (h2 : ∀ c, l.getLast? = some c → c.isWhitespace = false) :
    stripLC l = l := by
  unfold stripLC
  cases l with
  | nil => rfl
  | cons c cs =>
    rw [List.dropWhile_cons_of_neg (by simp [h1 c rfl])]
    exact dropTrailingWS_eq_self h2

theorem getLast?_key_sep_value (key value : Text) (sep : Char)
    (hsepws : sep.isWhitespace = false)
    (hvl : ∀ c, value.getLast? = some c → c.isWhitespace = false) :
    ∀ c, (key ++ sep :: value).getLast? = some c → c.isWhitespace = false := by
  intro c hc
  rw [List.getLast?_append] at hc
  rw [show sep :: value = [sep] ++ value from rfl, List.getLast?_append] at hc
  cases hvv : value.getLast? with
  | none =>
    rw [hvv] at hc
    simp at hc
    rw [← hc]
    exact hsepws
  | some d =>
    rw [hvv] at hc
    simp at hc
    rw [← hc]
    exact hvl d hvv

theorem parseSectionLine_not_bracket {line : Text}
    (h : ∀ c, (line.dropWhile Char.isWhitespace).head? = some c → c ≠ '[') :
    parseSectionLine line = none := by
  unfold parseSectionLine
  cases hdw : line.dropWhile Char.isWhitespace with
  | nil => rfl
  | cons c r =>
    have hc : c ≠ '[' := h c (by rw [hdw]; rfl)
    split
    · rename_i heq
      injection heq with h1 _
      exact absurd h1 hc
    · rfl

theorem parseKVLine_canonical (ind key value : Text) (sep : Char)
    (hind : ∀ c ∈ ind, c.isWhitespace = true)
    (hknil : key ≠ [])
    (hkh : ∀ c, key.head? = some c → c.isWhitespace = false)
    (hkchars : ∀ c ∈ key, c ≠ ':' ∧ c ≠ '=' ∧ c ≠ '#' ∧ c ≠ '[')
    (hsep : isSepChar sep = true)
    (hvl : ∀ c, value.getLast? = some c → c.isWhitespace = false) :
    parseKVLine (ind ++ key ++ sep :: value) = some (ind, key, sep, value, []) := by
  have hindp : ∀ c ∈ ind, (!isSepChar c) = true :=
    fun c hc => by simp [ws_not_sep (hind c hc)]
  have hkeyp : ∀ c ∈ key, (!isSepChar c) = true := fun c hc => by
    simp [isSepChar, (hkchars c hc).1, (hkchars c hc).2.1]
  have htw : (ind ++ key ++ sep :: value).takeWhile (fun c => !isSepChar c)
      = ind ++ key := by
    rw [List.append_assoc, takeWhile_append_all _ hindp,
      takeWhile_append_all _ hkeyp,
      List.takeWhile_cons_of_neg (by simp [hsep]), List.append_nil]
  have hdw : (ind ++ key ++ sep :: value).dropWhile (fun c => !isSepChar c)
      = sep :: value := by
    rw [List.append_assoc, dropWhile_append_all _ hindp,
      dropWhile_append_all _ hkeyp,
      List.dropWhile_cons_of_neg (by simp [hsep])]
  have hany : (ind ++ key).any (fun c => c == '#' || c == '[') = false := by
    rw [List.any_eq_false]
    intro x hx
    rcases List.mem_append.mp hx with hx | hx
    · simp [ws_not_hash_bracket (hind x hx)]
    · simp [(hkchars x hx).2.2.1, (hkchars x hx).2.2.2]
  have hind0 : (ind ++ key).takeWhile Char.isWhitespace = ind := by
    rw [takeWhile_append_all _ hind]
    cases key with
    | nil => exact absurd rfl hknil
    | cons kh kt =>
      rw [List.takeWhile_cons_of_neg (by simp [hkh kh rfl]), List.append_nil]
  have hkRaw : (ind ++ key).dropWhile Char.isWhitespace = key := by
    rw [dropWhile_append_all _ hind]
    cases key with
    | nil => exact absurd rfl hknil
    | cons kh kt =>
      rw [List.dropWhile_cons_of_neg (by simp [hkh kh rfl])]
  simp only [parseKVLine, htw, hdw, hany, hind0, hkRaw,
    dropTrailingWS_eq_self hvl, trailingWS_eq_nil hvl, Bool.false_eq_true,
    if_false]
  rw [if_pos hknil]


theorem getLast?_append_cases {a b : Text} {ch : Char}
    (h : (a ++ b).getLast? = some ch) :
    b.getLast? = some ch ∨ (b = [] ∧ a.getLast? = some ch) := by
  rw [List.getLast?_append] at h
  cases hb : b.getLast? with
  | none =>
    right
    rw [hb] at h
    simp only [Option.none_or] at h
    exact ⟨List.getLast?_eq_none_iff.mp hb, h⟩
  | some d =>
    left
    rw [hb] at h
    simp only [Option.or_some, Option.some.injEq] at h
    rw [h]

theorem getLast?_comment (value cmt : Text)
    (hcl : ∀ c, cmt.getLast? = some c → c.isWhitespace = false) :
    ∀ c, (value ++ ' ' :: '#' :: cmt).getLast? = some c →
      c.isWhitespace = false := by
  intro c hc
  rcases getLast?_append_cases hc with hc | ⟨hb, _⟩
  · rw [show (' ' :: '#' :: cmt : Text) = [' ', '#'] ++ cmt from rfl] at hc
    rcases getLast?_append_cases hc with hc | ⟨_, hc⟩
    · exact hcl c hc
    · rw [show ([' ', '#'] : Text).getLast? = some '#' from rfl] at hc
      cases hc
      decide
  · exact absurd hb (by simp)

theorem dropTrailingWS_append_ws {l : Text} {c : Char}
    (h : c.isWhitespace = true) :
    dropTrailingWS (l ++ [c]) = dropTrailingWS l := by
  unfold dropTrailingWS
  rw [List.reverse_append]
  show ((c :: l.reverse).dropWhile Char.isWhitespace).reverse = _
  rw [List.dropWhile_cons_of_pos h]

theorem stripLC_cons_ws {l : Text} {c : Char} (h : c.isWhitespace = true) :
    stripLC (c :: l) = stripLC l := by
  unfold stripLC
  rw [List.dropWhile_cons_of_pos h]

theorem splitFirst_hash_append (v cmt : Text) (hv : '#' ∉ v) :
    splitFirst '#' (v ++ ' ' :: '#' :: cmt) = (v ++ [' '], cmt) := by
  have hvp : ∀ c ∈ v, (c != '#') = true := by
    intro c hc
    simp only [bne_iff_ne, ne_eq]
    exact fun e => hv (e ▸ hc)
  unfold splitFirst
  rw [takeWhile_append_all _ hvp, dropWhile_append_all _ hvp]
  rw [List.takeWhile_cons_of_pos (by decide), List.takeWhile_cons_of_neg (by decide)]
  rw [List.dropWhile_cons_of_pos (by decide), List.dropWhile_cons_of_neg (by decide)]
  simp

theorem splitOnChar_ne_nil (c : Char) (l : Text) : splitOnChar c l ≠ [] := by
  cases l with
  | nil => simp [splitOnChar]
  | cons x xs =>
    simp only [splitOnChar]
    cases h : splitOnChar c xs with
    | nil => simp
    | cons hh tt =>
      by_cases hx : x = c
      · simp [hx]
      · simp [hx]

theorem splitOnChar_no_sep {c : Char} : ∀ {l : Text}, c ∉ l →
    splitOnChar c l = [l] := by
  intro l
  induction l with
  | nil => intro _; rfl
  | cons x xs ih =>
    intro h
    simp only [List.mem_cons, not_or] at h
    have hx : ¬ x = c := fun e => h.1 e.symm
    simp only [splitOnChar]
    rw [ih h.2]
    simp [hx]

theorem splitOnChar_append_cons {c : Char} : ∀ {l1 : Text} (l2 : Text),
    c ∉ l1 → splitOnChar c (l1 ++ c :: l2) = l1 :: splitOnChar c l2 := by
  intro l1
  induction l1 with
  | nil =>
    intro l2 _
    simp only [List.nil_append, splitOnChar]
    cases h : splitOnChar c l2 with
    | nil => exact absurd h (splitOnChar_ne_nil c l2)
    | cons hh tt => simp
  | cons x xs ih =>
    intro l2 h
    simp only [List.mem_cons, not_or] at h
    have hx : ¬ x = c := fun e => h.1 e.symm
    simp only [List.cons_append, splitOnChar, List.append_eq]
    rw [ih l2 h.2]
    simp [hx]

theorem splitOnChar_cons_of_ne {c x : Char} (l : Text) (hx : x ≠ c) :
    splitOnChar c (x :: l)
      = match splitOnChar c l with
        | [] => [[]]
        | h :: t => (x :: h) :: t := by
  simp only [splitOnChar]
  cases splitOnChar c l with
  | nil => rfl
  | cons h t => simp [hx]

theorem intercalate_cons_cons (sep a b : Text) (t : List Text) :
    List.intercalate sep (a :: b :: t)
      = a ++ sep ++ List.intercalate sep (b :: t) := by
  simp [List.intercalate, List.intersperse]

theorem splitOnChar_intercalate : ∀ (ps : List Text) (p : Text), ',' ∉ p →
    (∀ q ∈ ps, ',' ∉ q) →
    splitOnChar ',' (List.intercalate (lc ", ") (p :: ps))
      = p :: ps.map (fun q => ' ' :: q) := by
  intro ps
  induction ps with
  | nil =>
    intro p hp _
    rw [show List.intercalate (lc ", ") [p] = p by simp [List.intercalate]]
    rw [splitOnChar_no_sep hp]
    rfl
  | cons q t ih =>
    intro p hp hqs
    rw [intercalate_cons_cons]
    rw [show p ++ lc ", " ++ List.intercalate (lc ", ") (q :: t)
        = p ++ ',' :: (' ' :: List.intercalate (lc ", ") (q :: t)) by
      simp [lc, List.append_assoc]]
    rw [splitOnChar_append_cons _ hp]
    rw [splitOnChar_cons_of_ne _ (by decide)]
    rw [ih q (hqs q (by simp)) (fun x hx => hqs x (by simp [hx]))]
    rfl

theorem map_id_of_mem {α : Type} {f : α → α} : ∀ {l : List α},
    (∀ x ∈ l, f x = x) → l.map f = l := by
  intro l
  induction l with
  | nil => intro _; rfl
  | cons x xs ih =>
    intro h
    simp only [List.map_cons]
    rw [h x (by simp), ih (fun y hy => h y (by simp [hy]))]

theorem translateSingleValueRev_no_match (lib : Store) (value : Text)
    (hvmap : dictGet lib.valueTranslations value = none)
    (hpat : ∀ t ∈ sortedKeys lib.translations, hasWordMatch t value = false) :
    translateSingleValueRev lib value = value := by
  simp only [translateSingleValueRev]
  rw [if_neg (fun h => h (dictGetD_of_none hvmap))]
  exact applyPatterns_no_match _ _ hpat

/-- The key-value branch of the reverse rewriter, fully reduced: for a line
`indent ++ key ++ sep :: region` with whitespace indent, a well-formed key,
and a region that carries no trailing whitespace, the output is the indent,
the translated stripped key, the separator, and the translated value with the
re-attached comment, exactly as `_translate_kv_line` assembles them. -/
theorem revTranslateLine_kv_eq (lib : Store) (ind key region : Text) (sep : Char)
    (hind : ∀ c ∈ ind, c.isWhitespace = true)
    (hknil : key ≠ [])
    (hkh : ∀ c, key.head? = some c → c.isWhitespace = false)
    (hkchars : ∀ c ∈ key, c ≠ ':' ∧ c ≠ '=' ∧ c ≠ '#' ∧ c ≠ '[')
    (hsep : sep = ':' ∨ sep = '=')
    (hregl : ∀ c, region.getLast? = some c → c.isWhitespace = false) :
    revTranslateLine lib (ind ++ key ++ sep :: region)
      = ind ++ getTranslation lib (stripLC key) ++ sep ::
          (translateValueRev lib
             (if '#' ∈ stripLC region then stripLC (splitFirst '#' (stripLC region)).1
              else stripLC region)
           ++ (if '#' ∈ stripLC region
               then ' ' :: '#' :: (splitFirst '#' (stripLC region)).2 else [])) := by
  obtain ⟨kh, kt, rfl⟩ : ∃ kh kt, key = kh :: kt := by
    cases key with
    | nil => exact absurd rfl hknil
    | cons kh kt => exact ⟨kh, kt, rfl⟩
  have hkh1 : kh.isWhitespace = false := hkh kh rfl
  have hsepws : sep.isWhitespace = false := by
    rcases hsep with rfl | rfl <;> decide
  have hsepb : isSepChar sep = true := by
    rcases hsep with rfl | rfl <;> decide
  have hlast := getLast?_key_sep_value (kh :: kt) region sep hsepws hregl
  have hstrip : stripLC (ind ++ (kh :: kt) ++ sep :: region)
      = (kh :: kt) ++ sep :: region := by
    unfold stripLC
    rw [List.append_assoc, dropWhile_append_all _ hind, List.cons_append,
      List.dropWhile_cons_of_neg (by simp [hkh1]), ← List.cons_append]
    exact dropTrailingWS_eq_self hlast
  have hsec : parseSectionLine (ind ++ (kh :: kt) ++ sep :: region) = none := by
    apply parseSectionLine_not_bracket
    rw [List.append_assoc, dropWhile_append_all _ hind, List.cons_append,
      List.dropWhile_cons_of_neg (by simp [hkh1])]
    intro c hc
    simp only [List.head?_cons, Option.some.injEq] at hc
    subst hc
    exact (hkchars kh (by simp)).2.2.2
  have hkv := parseKVLine_canonical ind (kh :: kt) region sep hind hknil hkh
    hkchars hsepb hregl
  simp only [revTranslateLine, hstrip, hsec, hkv]
  rw [if_neg (by simp)]
  rw [if_neg (by
    simp only [List.cons_append, List.head?_cons, Option.some.injEq]
    exact fun h => (hkchars kh (by simp)).2.2.1 h)]
  by_cases hc : '#' ∈ stripLC region
  · simp [hc]
  · simp [hc]

/-- C8, counterexample: with nothing translatable (the empty store), the
key-value line `a: b` is rewritten to `a:b` — the rewriter re-emits stripped
key and value, so the space after the separator is not preserved
byte-for-byte. -/
theorem c8_counterexample :
    revTranslateLine emptyStore (lc "a: b") = lc "a:b"
    ∧ lc "a:b" ≠ lc "a: b" := by
  decide

/-- C8, amended: the rewriter re-emits every recognized key-value line in a
normalized form — indent + key + separator + value (+ one space + `#` +
comment), with key and value stripped of surrounding whitespace, the
trailing-whitespace group dropped, the inline comment re-attached after
exactly one space with its text preserved, and a comma-containing value
re-joined from its stripped elements with a comma and a single space.  A line
with no key-map, literal-map or free-text pattern match is therefore
reproduced byte-for-byte when it is already in this normalized form; the
counterexample shows it is not preserved otherwise.  Three parts: (1) every
line `indent ++ key ++ sep :: (value ++ commentPart)` — indent whitespace;
key non-empty, free of `:`/`=`/`#`/`[`, not starting or ending in whitespace;
value `#`-free, not starting or ending in whitespace; commentPart empty or
`" #" ++ comment` with no trailing whitespace — whose key has no key-map
entry and whose value the value translator fixes, is reproduced exactly;
(2) the value translator fixes every comma-free value with no literal-map
entry and no pattern match; (3) it also fixes every comma list
`p₀, p₁, …` already joined with a comma and single space from stripped,
comma-free elements none of which has a literal-map entry or a pattern
match. -/
theorem c8_frame (lib : Store) :
    (∀ (ind key value cmtPart : Text) (sep : Char),
       (∀ c ∈ ind, c.isWhitespace = true) → key ≠ [] →
       (∀ c, key.head? = some c → c.isWhitespace = false) →
       (∀ c, key.getLast? = some c → c.isWhitespace = false) →
       (∀ c ∈ key, c ≠ ':' ∧ c ≠ '=' ∧ c ≠ '#' ∧ c ≠ '[') →
       sep = ':' ∨ sep = '=' →
       (∀ c, value.head? = some c → c.isWhitespace = false) →
       (∀ c, value.getLast? = some c → c.isWhitespace = false) →
       '#' ∉ value →
       (cmtPart = [] ∨ ∃ cmt, cmtPart = ' ' :: '#' :: cmt
           ∧ ∀ c, cmt.getLast? = some c → c.isWhitespace = false) →
       dictGet lib.translations key = none →
       translateValueRev lib value = value →
       revTranslateLine lib (ind ++ key ++ sep :: (value ++ cmtPart))
         = ind ++ key ++ sep :: (value ++ cmtPart))
    ∧ (∀ value : Text, ',' ∉ value →
       dictGet lib.valueTranslations value = none →
       (∀ t ∈ sortedKeys lib.translations, hasWordMatch t value = false) →
       translateValueRev lib value = value)
    ∧ (∀ (p : Text) (ps : List Text), ps ≠ [] →
       (∀ q ∈ p :: ps, ',' ∉ q ∧ stripLC q = q
          ∧ dictGet lib.valueTranslations q = none
          ∧ (∀ t ∈ sortedKeys lib.translations, hasWordMatch t q = false)) →
       translateValueRev lib (List.intercalate (lc ", ") (p :: ps))
         = List.intercalate (lc ", ") (p :: ps)) := by
  refine ⟨?_, ?_, ?_⟩
  · intro ind key value cmtPart sep hind hknil hkh hkl hkchars hsep hvh hvl
      hhash hcmt hkmap hval
    have hgk : getTranslation lib key = key := dictGetD_of_none hkmap
    rcases hcmt with rfl | ⟨cmt, rfl, hcl⟩
    · simp only [List.append_nil]
      rw [revTranslateLine_kv_eq lib ind key value sep hind hknil hkh hkchars
        hsep hvl]
      rw [stripLC_eq_self hkh hkl, hgk, stripLC_eq_self hvh hvl]
      rw [if_neg hhash, if_neg hhash, hval]
      simp
    · have hregl := getLast?_comment value cmt hcl
      rw [revTranslateLine_kv_eq lib ind key (value ++ ' ' :: '#' :: cmt) sep
        hind hknil hkh hkchars hsep hregl]
      rw [stripLC_eq_self hkh hkl, hgk]
      cases value with
      | nil =>
        have hs0 : stripLC (([] : Text) ++ ' ' :: '#' :: cmt) = '#' :: cmt := by
          simp only [List.nil_append]
          rw [stripLC_cons_ws (by decide)]
          apply stripLC_eq_self
          · intro c hc
            simp only [List.head?_cons, Option.some.injEq] at hc
            subst hc
            decide
          · intro c hc
            rw [show ('#' :: cmt : Text) = ['#'] ++ cmt from rfl] at hc
            rcases getLast?_append_cases hc with hc | ⟨_, hc⟩
            · exact hcl c hc
            · rw [show (['#'] : Text).getLast? = some '#' from rfl] at hc
              cases hc
              decide
        rw [hs0]
        rw [if_pos (by simp), if_pos (by simp)]
        have hsplit : splitFirst '#' ('#' :: cmt) = ([], cmt) := by
          unfold splitFirst
          rw [List.takeWhile_cons_of_neg (by decide),
            List.dropWhile_cons_of_neg (by decide)]
          rfl
        rw [hsplit]
        rw [show stripLC ([] : Text) = [] from rfl]
        rw [hval]
      | cons vh vt =>
        have hvh1 : vh.isWhitespace = false := hvh vh rfl
        have hs0 : stripLC ((vh :: vt) ++ ' ' :: '#' :: cmt)
            = (vh :: vt) ++ ' ' :: '#' :: cmt := by
          unfold stripLC
          rw [List.cons_append, List.dropWhile_cons_of_neg (by simp [hvh1]),
            ← List.cons_append]
          exact dropTrailingWS_eq_self hregl
        rw [hs0]
        rw [if_pos (by simp), if_pos (by simp)]
        rw [splitFirst_hash_append _ _ hhash]
        have hv1 : stripLC ((vh :: vt) ++ [' ']) = vh :: vt := by
          unfold stripLC
          rw [List.cons_append, List.dropWhile_cons_of_neg (by simp [hvh1]),
            ← List.cons_append]
          rw [dropTrailingWS_append_ws (by decide)]
          exact dropTrailingWS_eq_self hvl
        rw [hv1, hval]
  · intro value hnc hvmap hpat
    unfold translateValueRev
    rw [if_neg hnc]
    exact translateSingleValueRev_no_match lib value hvmap hpat
  · intro p ps hps hparts
    have hcomma : ',' ∈ List.intercalate (lc ", ") (p :: ps) := by
      obtain ⟨q, t, rfl⟩ : ∃ q t, ps = q :: t := by
        cases ps with
        | nil => exact absurd rfl hps
        | cons q t => exact ⟨q, t, rfl⟩
      rw [intercalate_cons_cons]
      simp [lc]
    unfold translateValueRev
    rw [if_pos hcomma]
    rw [splitOnChar_intercalate ps p (hparts p (by simp)).1
      (fun q hq => (hparts q (by simp [hq])).1)]
    have hmap1 : ((p :: ps.map (fun q => ' ' :: q)).map stripLC) = p :: ps := by
      simp only [List.map_cons, List.map_map]
      rw [(hparts p (by simp)).2.1]
      rw [map_id_of_mem (fun q hq => by
        show stripLC (' ' :: q) = q
        rw [stripLC_cons_ws (by decide)]
        exact (hparts q (by simp [hq])).2.1)]
    rw [hmap1]
    rw [map_id_of_mem (fun q hq => translateSingleValueRev_no_match lib q
      (hparts q hq).2.2.1 (hparts q hq).2.2.2)]

/-- C8, witness: a comment-bearing line and a normalized comma-list line are
reproduced byte-for-byte by a store that cannot translate any of their
parts. -/
theorem c8_frame_witness :
    revTranslateLine (⟨[(lc "speed", lc "速度")], [], []⟩ : Store)
        (lc "  other:5b # note") = lc "  other:5b # note"
    ∧ revTranslateLine (⟨[(lc "speed", lc "速度")], [], []⟩ : Store)
        (lc "k:a, bc") = lc "k:a, bc" := by
  constructor
  · have hval : translateValueRev (⟨[(lc "speed", lc "速度")], [], []⟩ : Store)
        (lc "5b") = lc "5b" :=
      (c8_frame (⟨[(lc "speed", lc "速度")], [], []⟩ : Store)).2.1 (lc "5b")
        (by decide) (by decide) (by decide)
    have h := (c8_frame (⟨[(lc "speed", lc "速度")], [], []⟩ : Store)).1
      (lc "  ") (lc "other") (lc "5b") (' ' :: '#' :: lc " note") ':'
      (by decide) (by decide) (by decide) (by decide) (by decide) (Or.inl rfl)
      (by decide) (by decide) (by decide)
      (Or.inr ⟨lc " note", rfl, by decide⟩) (by decide) hval
    have heq : lc "  other:5b # note"
        = lc "  " ++ lc "other" ++ ':' :: (lc "5b" ++ ' ' :: '#' :: lc " note") := by
      decide
    rw [heq]
    exact h
  · have hval : translateValueRev (⟨[(lc "speed", lc "速度")], [], []⟩ : Store)
        (lc "a, bc") = lc "a, bc" := by
      have h3 := (c8_frame (⟨[(lc "speed", lc "速度")], [], []⟩ : Store)).2.2
        (lc "a") [lc "bc"] (by simp) (by decide)
      rw [show lc "a, bc" = List.intercalate (lc ", ") [lc "a", lc "bc"] by decide]
      exact h3
    have h := (c8_frame (⟨[(lc "speed", lc "速度")], [], []⟩ : Store)).1
      ([] : Text) (lc "k") (lc "a, bc") ([] : Text) ':'
      (by decide) (by decide) (by decide) (by decide) (by decide) (Or.inl rfl)
      (by decide) (by decide) (by decide) (Or.inl rfl) (by decide) hval
    have heq : lc "k:a, bc"
        = ([] : Text) ++ lc "k" ++ ':' :: (lc "a, bc" ++ []) := by
      decide
    rw [heq]
    exact h

/-- C4, witness: a two-entry Key/Key glossary is reported with both line
numbers, and a Section/Key homonym pair is exempted. -/
theorem c4_conflict_detection_witness :
    lookupEntries (duplicateKeys (collectKeyEntries
        [lc "foo = X", lc "foo = Y"]) true) (lc "foo") = some [1, 2]
    ∧ lookupEntries (duplicateKeys (collectKeyEntries
        [lc "[foo] = [AA]", lc "foo = BB"]) true) (lc "foo") = none :=
  ⟨(c4_conflict_detection [lc "foo = X", lc "foo = Y"] (lc "foo") 1 2).1
      (by decide),
   (c4_conflict_detection [lc "[foo] = [AA]", lc "foo = BB"] (lc "foo") 1 2).2.1
      (by decide)⟩

end IniTrans
